import Mathlib

/-!
Verification of the PCA pipeline described in the repository's notebook
(`Week_10/Day1/.ipynb_checkpoints/PCA_Introduction-checkpoint.ipynb`).

The notebook delegates every numeric step to library routines
(`sklearn.preprocessing.StandardScaler`, `numpy.cov`, `numpy.linalg.eig`,
`numpy.argsort`, `sklearn.decomposition.PCA`), none of whose source is part
of the repository.  The pipeline components are therefore modelled over `ℚ`
from the specification's contracts (§4.1–§4.3, §7), with the notebook's own
glue code (the argsort-based reindexing of eigenvalues and eigenvector
columns) embedded directly.
-/

namespace PCA

open Matrix

/-- Error taxonomy of the pipeline (spec §7): zero-variance feature,
bad component count, meaningfully negative eigenvalue. -/
inductive Err where
  | DivisionByZero
  | InvalidArgument
  | NumericalError
deriving DecidableEq

/-- Sample mean of feature column `j` of an `n × m` data matrix. -/
def colMean {n m : ℕ} (X : Matrix (Fin n) (Fin m) ℚ) (j : Fin m) : ℚ :=
  (∑ i, X i j) / (n : ℚ)

/-- Sample variance (`N − 1` denominator) of feature column `j`. -/
def colSampleVar {n m : ℕ} (X : Matrix (Fin n) (Fin m) ℚ) (j : Fin m) : ℚ :=
  (∑ i, (X i j - colMean X j) ^ 2) / ((n : ℚ) - 1)

/-- `σ` assigns to each column a positive scale whose square is the sample
variance of that column, i.e. `σ j` is the sample standard deviation
(`N − 1` denominator) of column `j`.  Working over `ℚ`, the standard
deviation cannot be written as a closed form, so it is characterised by
this predicate instead. -/
def IsSampleStd {n m : ℕ} (X : Matrix (Fin n) (Fin m) ℚ) (σ : Fin m → ℚ) : Prop :=
  ∀ j, 0 < σ j ∧ σ j ^ 2 = colSampleVar X j

instance {n m : ℕ} (X : Matrix (Fin n) (Fin m) ℚ) (σ : Fin m → ℚ) :
    Decidable (IsSampleStd X σ) :=
  inferInstanceAs (Decidable (∀ _, _ ∧ _))

/-- Modelled from the spec: `StandardScaler.fit_transform` is sklearn library
code absent from the repository; §4.1 prescribes
`StandardizedMatrix[i,j] = (X[i,j] − μ_j) / σ_j`. -/
def standardize {n m : ℕ} (X : Matrix (Fin n) (Fin m) ℚ) (σ : Fin m → ℚ) :
    Matrix (Fin n) (Fin m) ℚ :=
  fun i j => (X i j - colMean X j) / σ j

/-- Modelled from the spec: the Standardizer's error behaviour (§4.1, §7)
for library code absent from the repository — "fails with DivisionByZero if
any σ_j = 0 (constant feature)", otherwise produces the standardized
matrix. -/
def standardizeChecked {n m : ℕ} (X : Matrix (Fin n) (Fin m) ℚ) (σ : Fin m → ℚ) :
    Except Err (Matrix (Fin n) (Fin m) ℚ) :=
  if ∃ j, σ j = 0 then .error .DivisionByZero else .ok (standardize X σ)

/-- Modelled from the spec: `numpy.cov(X_std.T)` is library code absent from
the repository; it computes the sample covariance (`N − 1` denominator) of
the columns after centering each one, entry `(j,k)` being the sample
covariance of features `j` and `k` (spec §3, §4.2). -/
def covMatrix {n m : ℕ} (X : Matrix (Fin n) (Fin m) ℚ) : Matrix (Fin m) (Fin m) ℚ :=
  fun j k => (∑ i, (X i j - colMean X j) * (X i k - colMean X k)) / ((n : ℚ) - 1)

/-- The index order produced by `np.argsort(eigenvalues)[::-1]` in the
notebook: indices sorted by ascending eigenvalue, then reversed, so that the
list walks the eigenvalues in descending order. -/
def sortedIdxList {m : ℕ} (ev : Fin m → ℚ) : List (Fin m) :=
  (List.insertionSort (fun a b => ev a ≤ ev b) (List.finRange m)).reverse

/-- Position `c` of the descending index order (`sorted_idx[c]`). -/
def sortIdx {m : ℕ} (ev : Fin m → ℚ) (c : Fin m) : Fin m :=
  (sortedIdxList ev).get
    (Fin.cast (by simp [sortedIdxList, List.length_insertionSort]) c)

/-- The eigenvalues after the notebook's reindexing
`eigenvalues = eigenvalues[sorted_idx]`. -/
def sortedEig {m : ℕ} (ev : Fin m → ℚ) (c : Fin m) : ℚ :=
  ev (sortIdx ev c)

/-- The eigenvector matrix after the notebook's column reindexing
`eigenvectors = eigenvectors[:, sorted_idx]`. -/
def sortedVecs {m : ℕ} (ev : Fin m → ℚ) (V : Matrix (Fin m) (Fin m) ℚ) :
    Matrix (Fin m) (Fin m) ℚ :=
  fun r c => V r (sortIdx ev c)

/-- Modelled from the spec: the Covariance/Eigen Step's error behaviour
(§4.2, §7) around `np.linalg.eig` (library code absent from the repository) —
fail with NumericalError when some eigenvalue lies below the −1e-6
tolerance, otherwise hand the (real, here rational) eigenvalues on. -/
def eigenChecked {m : ℕ} (ev : Fin m → ℚ) : Except Err (Fin m → ℚ) :=
  if ∃ c, ev c < -(1 / 1000000 : ℚ) then .error .NumericalError else .ok ev

/-- Modelled from the spec: the projection matrix W of §4.3 — the `M × k`
matrix whose columns are the top-`k` sorted eigenvectors. -/
def projW {m : ℕ} (ev : Fin m → ℚ) (V : Matrix (Fin m) (Fin m) ℚ)
    (k : ℕ) (hk : k ≤ m) : Matrix (Fin m) (Fin k) ℚ :=
  fun j c => sortedVecs ev V j (Fin.castLE hk c)

/-- Modelled from the spec: sklearn `PCA.fit_transform` is library code
absent from the repository; §4.3 prescribes
`ReducedMatrix = StandardizedMatrix · W`. -/
def reduce {n m : ℕ} (Xs : Matrix (Fin n) (Fin m) ℚ) (ev : Fin m → ℚ)
    (V : Matrix (Fin m) (Fin m) ℚ) (k : ℕ) (hk : k ≤ m) :
    Matrix (Fin n) (Fin k) ℚ :=
  Xs * projW ev V k hk

/-- The Reducer's output as the spec words it elsewhere (§3): "each row the
projection of one standardized sample onto the top-k eigenvectors" — entry
`(i, c)` is the dot product of standardized sample `i` with the eigenvector
paired with the `c`-th largest eigenvalue. -/
def reduceSpec {n m : ℕ} (Xs : Matrix (Fin n) (Fin m) ℚ) (ev : Fin m → ℚ)
    (V : Matrix (Fin m) (Fin m) ℚ) (k : ℕ) (hk : k ≤ m) :
    Matrix (Fin n) (Fin k) ℚ :=
  fun i c => ∑ j, Xs i j * V j (sortIdx ev (Fin.castLE hk c))

/-- Modelled from the spec: `pca.explained_variance_ratio_` is sklearn
library code absent from the repository; §4.3 prescribes
`ExplainedVarianceRatio[c] = eigenvalue[c] / Σ(all eigenvalues)` with the
eigenvalues in descending order. -/
def explainedVarianceRatio {m : ℕ} (ev : Fin m → ℚ) (c : Fin m) : ℚ :=
  sortedEig ev c / ∑ j, ev j

/-- A concrete 3-sample, 2-feature data table used to instantiate the
theorems; its column sample standard deviations are the rationals 1 and 2. -/
def Xd : Matrix (Fin 3) (Fin 2) ℚ := !![0, 0; 1, 2; 2, 4]

/-- The sample standard deviations of `Xd`'s columns. -/
def sd : Fin 2 → ℚ := ![1, 2]

/-- Eigenvector matrix of `covMatrix (standardize Xd sd)` (= all-ones 2×2):
columns `(1,1)` and `(1,−1)`. -/
def Vd : Matrix (Fin 2) (Fin 2) ℚ := !![1, 1; 1, -1]

/-- Eigenvalues paired with `Vd`'s columns. -/
def evd : Fin 2 → ℚ := ![2, 0]

/-- A concrete table whose second feature column is constant. -/
def Xc : Matrix (Fin 3) (Fin 2) ℚ := !![0, 5; 1, 5; 2, 5]

/-- Column scales for `Xc`: the constant column has zero deviation. -/
def sc : Fin 2 → ℚ := ![1, 0]

lemma sum_center {n m : ℕ} (X : Matrix (Fin n) (Fin m) ℚ) (j : Fin m)
    (hn : (n : ℚ) ≠ 0) : ∑ i, (X i j - colMean X j) = 0 := by
  rw [Finset.sum_sub_distrib, colMean, Finset.sum_const, Finset.card_univ,
    Fintype.card_fin, nsmul_eq_mul]
  field_simp

lemma colMean_standardize {n m : ℕ} (X : Matrix (Fin n) (Fin m) ℚ)
    (σ : Fin m → ℚ) (hn : (n : ℚ) ≠ 0) (j : Fin m) :
    colMean (standardize X σ) j = 0 := by
  unfold colMean standardize
  rw [← Finset.sum_div, sum_center X j hn]
  simp

lemma sq_sum_of_sampleStd {n m : ℕ} (X : Matrix (Fin n) (Fin m) ℚ)
    (σ : Fin m → ℚ) (hn1 : ((n : ℚ) - 1) ≠ 0) (hσ : IsSampleStd X σ) (j : Fin m) :
    σ j ^ 2 * ((n : ℚ) - 1) = ∑ i, (X i j - colMean X j) ^ 2 := by
  rw [(hσ j).2, colSampleVar, div_mul_cancel₀ _ hn1]

lemma colSampleVar_standardize {n m : ℕ} (X : Matrix (Fin n) (Fin m) ℚ)
    (σ : Fin m → ℚ) (hn : 2 ≤ n) (hσ : IsSampleStd X σ) (j : Fin m) :
    colSampleVar (standardize X σ) j = 1 := by
  have hn0 : (n : ℚ) ≠ 0 := Nat.cast_ne_zero.mpr (by omega)
  have hn2 : (2 : ℚ) ≤ (n : ℚ) := by exact_mod_cast hn
  have hn1 : ((n : ℚ) - 1) ≠ 0 := by linarith
  have hσ0 : σ j ≠ 0 := ne_of_gt (hσ j).1
  unfold colSampleVar
  simp only [colMean_standardize X σ hn0, sub_zero]
  unfold standardize
  simp only [div_pow]
  rw [← Finset.sum_div, ← sq_sum_of_sampleStd X σ hn1 hσ j]
  field_simp

lemma covMatrix_diag {n m : ℕ} (Y : Matrix (Fin n) (Fin m) ℚ) (j : Fin m) :
    covMatrix Y j j = colSampleVar Y j := by
  unfold covMatrix colSampleVar
  congr 1
  exact Finset.sum_congr rfl fun i _ => (pow_two _).symm

/-- C1: every feature column of the standardized matrix has sample mean
within 1e-9 of 0 and sample variance within 1e-6 of 1 (both hold exactly
over `ℚ`). -/
theorem standardized_mean_zero_var_one {n m : ℕ} (X : Matrix (Fin n) (Fin m) ℚ)
    (σ : Fin m → ℚ) (hn : 2 ≤ n) (hσ : IsSampleStd X σ) (j : Fin m) :
    |colMean (standardize X σ) j| ≤ 1 / 1000000000 ∧
    |colSampleVar (standardize X σ) j - 1| ≤ 1 / 1000000 := by
  have hn0 : (n : ℚ) ≠ 0 := Nat.cast_ne_zero.mpr (by omega)
  rw [colMean_standardize X σ hn0 j, colSampleVar_standardize X σ hn hσ j]
  norm_num

/-- Witness for C1 at the concrete table `Xd` with scales `sd`. -/
theorem standardized_mean_zero_var_one_witness :
    (2 ≤ 3 ∧ IsSampleStd Xd sd) ∧
    |colMean (standardize Xd sd) 0| ≤ 1 / 1000000000 ∧
    |colSampleVar (standardize Xd sd) 0 - 1| ≤ 1 / 1000000 := by
  have h1 : IsSampleStd Xd sd := by
    intro j
    fin_cases j <;> constructor <;>
      norm_num [IsSampleStd, colSampleVar, colMean, Xd, sd, Fin.sum_univ_succ]
  exact ⟨⟨by norm_num, h1⟩,
    standardized_mean_zero_var_one Xd sd (by norm_num) h1 0⟩

/-- C2: the Standardizer's per-column scale `σ_j` is the sample standard
deviation (`N − 1` denominator): each output entry times `σ_j` recovers the
centered entry, `σ_j²·(N−1)` is the centered sum of squares, and the match
with the downstream sample-covariance convention makes the covariance
diagonal of the standardized data exactly 1. -/
theorem standardizer_sample_std_convention {n m : ℕ} (X : Matrix (Fin n) (Fin m) ℚ)
    (σ : Fin m → ℚ) (hn : 2 ≤ n) (hσ : IsSampleStd X σ) (i : Fin n) (j : Fin m) :
    standardize X σ i j * σ j = X i j - colMean X j ∧
    σ j ^ 2 * ((n : ℚ) - 1) = ∑ i', (X i' j - colMean X j) ^ 2 ∧
    covMatrix (standardize X σ) j j = 1 := by
  have hn2 : (2 : ℚ) ≤ (n : ℚ) := by exact_mod_cast hn
  have hn1 : ((n : ℚ) - 1) ≠ 0 := by linarith
  have hσ0 : σ j ≠ 0 := ne_of_gt (hσ j).1
  refine ⟨?_, sq_sum_of_sampleStd X σ hn1 hσ j, ?_⟩
  · unfold standardize
    rw [div_mul_cancel₀ _ hσ0]
  · rw [covMatrix_diag, colSampleVar_standardize X σ hn hσ j]

/-- Witness for C2 at the concrete table `Xd` with scales `sd`. -/
theorem standardizer_sample_std_convention_witness :
    (2 ≤ 3 ∧ IsSampleStd Xd sd) ∧
    (standardize Xd sd 0 1 * sd 1 = Xd 0 1 - colMean Xd 1 ∧
     sd 1 ^ 2 * ((3 : ℕ) - 1 : ℚ) = ∑ i', (Xd i' 1 - colMean Xd 1) ^ 2 ∧
     covMatrix (standardize Xd sd) 1 1 = 1) := by
  have h1 : IsSampleStd Xd sd := by
    intro j
    fin_cases j <;> constructor <;>
      norm_num [IsSampleStd, colSampleVar, colMean, Xd, sd, Fin.sum_univ_succ]
  exact ⟨⟨by norm_num, h1⟩,
    standardizer_sample_std_convention Xd sd (by norm_num) h1 0 1⟩

/-- C3: a constant feature column has zero sample deviation, and the
Standardizer then fails with `DivisionByZero` instead of producing output. -/
theorem constant_column_divisionByZero {n m : ℕ} (X : Matrix (Fin n) (Fin m) ℚ)
    (σ : Fin m → ℚ) (hn : 2 ≤ n) (j : Fin m)
    (hconst : ∀ i i', X i j = X i' j)
    (hσ : ∀ j', σ j' ^ 2 = colSampleVar X j') :
    standardizeChecked X σ = .error .DivisionByZero := by
  have hpos : 0 < n := by omega
  have hn0 : (n : ℚ) ≠ 0 := Nat.cast_ne_zero.mpr (by omega)
  have hmean : colMean X j = X ⟨0, hpos⟩ j := by
    unfold colMean
    rw [Finset.sum_congr rfl fun i _ => hconst i ⟨0, hpos⟩, Finset.sum_const,
      Finset.card_univ, Fintype.card_fin, nsmul_eq_mul]
    field_simp
  have hvar : colSampleVar X j = 0 := by
    unfold colSampleVar
    rw [Finset.sum_eq_zero fun i _ => by rw [hmean, hconst i ⟨0, hpos⟩]; simp]
    simp
  have hz : σ j = 0 := by
    have h := hσ j
    rw [hvar] at h
    exact pow_eq_zero_iff (two_ne_zero) |>.mp h
  unfold standardizeChecked
  rw [if_pos ⟨j, hz⟩]

/-- Witness for C3 at the concrete table `Xc` (constant second column). -/
theorem constant_column_divisionByZero_witness :
    standardizeChecked Xc sc = .error .DivisionByZero :=
  constant_column_divisionByZero Xc sc (by norm_num) 1
    (fun i i' => by fin_cases i <;> fin_cases i' <;> norm_num [Xc])
    (fun j' => by
      fin_cases j' <;>
        norm_num [sc, colSampleVar, colMean, Xc, Fin.sum_univ_succ])

/-- C4: on a matrix whose columns have mean zero (as the standardized matrix
does), the covariance computation reduces to `(1/(N−1)) · Xᵀ·X`, and the
covariance matrix is exactly symmetric. -/
theorem covMatrix_gram_and_symmetric {n m : ℕ} (X : Matrix (Fin n) (Fin m) ℚ)
    (hn : 2 ≤ n) (hmean : ∀ j, colMean X j = 0) :
    covMatrix X = ((n : ℚ) - 1)⁻¹ • (Xᵀ * X) ∧
    (covMatrix X)ᵀ = covMatrix X := by
  constructor
  · ext j k
    simp only [covMatrix, hmean, sub_zero, Matrix.smul_apply, Matrix.mul_apply,
      Matrix.transpose_apply, smul_eq_mul]
    rw [div_eq_inv_mul]
  · ext j k
    simp only [Matrix.transpose_apply, covMatrix]
    congr 1
    exact Finset.sum_congr rfl fun i _ => mul_comm _ _

/-- Witness for C4 at the standardized concrete table. -/
theorem covMatrix_gram_and_symmetric_witness :
    covMatrix (standardize Xd sd)
      = (((3 : ℕ) : ℚ) - 1)⁻¹ • ((standardize Xd sd)ᵀ * standardize Xd sd) ∧
    (covMatrix (standardize Xd sd))ᵀ = covMatrix (standardize Xd sd) :=
  covMatrix_gram_and_symmetric (standardize Xd sd) (by norm_num)
    (fun j => by
      fin_cases j <;>
        norm_num [colMean, standardize, Xd, sd, Fin.sum_univ_succ])

lemma sortedIdxList_sorted {m : ℕ} (ev : Fin m → ℚ) :
    (sortedIdxList ev).Sorted fun a b => ev b ≤ ev a := by
  haveI : IsTotal (Fin m) fun a b => ev a ≤ ev b := ⟨fun a b => le_total _ _⟩
  haveI : IsTrans (Fin m) fun a b => ev a ≤ ev b := ⟨fun _ _ _ h h' => le_trans h h'⟩
  unfold sortedIdxList
  exact List.pairwise_reverse.mpr (List.sorted_insertionSort _ _)

lemma sortedEig_anti {m : ℕ} (ev : Fin m → ℚ) {c c' : Fin m} (h : c ≤ c') :
    sortedEig ev c' ≤ sortedEig ev c := by
  rcases eq_or_lt_of_le h with rfl | hlt
  · exact le_refl _
  · unfold sortedEig sortIdx
    refine (sortedIdxList_sorted ev).rel_get_of_lt ?_
    simp only [Fin.lt_def, Fin.coe_cast]
    exact hlt

/-- C5: after the argsort-based reindexing, adjacent sorted eigenvalues are
non-increasing: `eigenvalue[c+1] ≤ eigenvalue[c]`. -/
theorem sortedEig_nonincreasing {m : ℕ} (ev : Fin m → ℚ) (c : ℕ) (h : c + 1 < m) :
    sortedEig ev ⟨c + 1, h⟩ ≤ sortedEig ev ⟨c, Nat.lt_of_succ_lt h⟩ :=
  sortedEig_anti ev (by simp [Fin.le_def])

/-- Witness for C5 at the concrete eigenvalue vector `evd`. -/
theorem sortedEig_nonincreasing_witness :
    (0 : ℕ) + 1 < 2 ∧ sortedEig evd 1 ≤ sortedEig evd 0 :=
  ⟨by norm_num, sortedEig_nonincreasing evd 0 (by norm_num)⟩

/-- C6: the Covariance/Eigen Step fails with `NumericalError` exactly when
some (real, here rational) eigenvalue lies below the −1e-6 tolerance. -/
theorem eigenChecked_negative_numericalError {m : ℕ} (ev : Fin m → ℚ) :
    eigenChecked ev = .error .NumericalError ↔
      ∃ c, ev c < -(1 / 1000000 : ℚ) := by
  unfold eigenChecked
  split
  · simp_all
  · simp_all

lemma eigen_sum_eq_trace {m : ℕ} (C V : Matrix (Fin m) (Fin m) ℚ)
    (ev : Fin m → ℚ) (hV : C * V = V * Matrix.diagonal ev)
    (hdet : IsUnit V.det) : ∑ c, ev c = C.trace := by
  have hC : C = V * Matrix.diagonal ev * V⁻¹ := by
    calc C = C * (V * V⁻¹) := by rw [Matrix.mul_nonsing_inv V hdet, Matrix.mul_one]
      _ = C * V * V⁻¹ := by rw [Matrix.mul_assoc]
      _ = V * Matrix.diagonal ev * V⁻¹ := by rw [hV]
  rw [hC, Matrix.trace_mul_comm, ← Matrix.mul_assoc,
    Matrix.nonsing_inv_mul V hdet, Matrix.one_mul, Matrix.trace_diagonal]

/-- C7: the eigenvalues of the covariance matrix of the standardized data
sum (exactly, hence within 1e-6) to the covariance trace, and that trace
equals the feature count `M`. -/
theorem eigen_sum_trace_featureCount {n m : ℕ} (X : Matrix (Fin n) (Fin m) ℚ)
    (σ : Fin m → ℚ) (V : Matrix (Fin m) (Fin m) ℚ) (ev : Fin m → ℚ)
    (hn : 2 ≤ n) (hσ : IsSampleStd X σ)
    (hV : covMatrix (standardize X σ) * V = V * Matrix.diagonal ev)
    (hdet : IsUnit V.det) :
    |(∑ c, ev c) - (covMatrix (standardize X σ)).trace| ≤ 1 / 1000000 ∧
    (covMatrix (standardize X σ)).trace = (m : ℚ) := by
  have htr : (covMatrix (standardize X σ)).trace = (m : ℚ) := by
    have hdiag : ∀ j, (covMatrix (standardize X σ)).diag j = 1 := fun j => by
      rw [Matrix.diag, covMatrix_diag, colSampleVar_standardize X σ hn hσ]
    rw [Matrix.trace, Finset.sum_congr rfl fun j _ => hdiag j]
    simp [Finset.card_univ]
  refine ⟨?_, htr⟩
  rw [eigen_sum_eq_trace _ V ev hV hdet, sub_self, abs_zero]
  norm_num

/-- Witness for C7 at the concrete standardized table, with the explicit
eigendecomposition `Vd`, `evd` of its all-ones covariance matrix. -/
theorem eigen_sum_trace_featureCount_witness :
    |(∑ c, evd c) - (covMatrix (standardize Xd sd)).trace| ≤ 1 / 1000000 ∧
    (covMatrix (standardize Xd sd)).trace = ((2 : ℕ) : ℚ) :=
  eigen_sum_trace_featureCount Xd sd Vd evd (by norm_num)
    (fun j => by
      fin_cases j <;> constructor <;>
        norm_num [colSampleVar, colMean, Xd, sd, Fin.sum_univ_succ])
    (by
      ext i j
      fin_cases i <;> fin_cases j <;>
        norm_num [Matrix.mul_apply, covMatrix, standardize, colMean, Xd, sd,
          Vd, evd, Matrix.diagonal, Fin.sum_univ_succ])
    (isUnit_iff_ne_zero.mpr (by norm_num [Matrix.det_fin_two, Vd]))

/-- C8: for the fixed component count `k = 2` (with `k ≤ M`), the Reducer's
output `StandardizedMatrix · W` agrees entrywise with the spec's wording:
each entry is the dot product of a standardized sample with the eigenvector
paired with one of the 2 largest eigenvalues. -/
theorem reduce_eq_topk_projection {n m : ℕ} (Xs : Matrix (Fin n) (Fin m) ℚ)
    (ev : Fin m → ℚ) (V : Matrix (Fin m) (Fin m) ℚ) (hk : 2 ≤ m) :
    reduce Xs ev V 2 hk = reduceSpec Xs ev V 2 hk := by
  ext i c
  simp [reduce, reduceSpec, projW, sortedVecs, Matrix.mul_apply]

/-- Witness for C8 at the standardized concrete table. -/
theorem reduce_eq_topk_projection_witness :
    2 ≤ 2 ∧ reduce (standardize Xd sd) evd Vd 2 (le_refl 2)
      = reduceSpec (standardize Xd sd) evd Vd 2 (le_refl 2) :=
  ⟨le_refl 2, reduce_eq_topk_projection (standardize Xd sd) evd Vd (le_refl 2)⟩

lemma sortedIdxList_nodup {m : ℕ} (ev : Fin m → ℚ) :
    (sortedIdxList ev).Nodup := by
  unfold sortedIdxList
  rw [List.nodup_reverse]
  exact (List.perm_insertionSort _ _).nodup_iff.mpr (List.nodup_finRange m)

lemma sortIdx_bijective {m : ℕ} (ev : Fin m → ℚ) :
    Function.Bijective (sortIdx ev) := by
  rw [Fintype.bijective_iff_injective_and_card]
  refine ⟨fun a b hab => ?_, rfl⟩
  have hinj := List.nodup_iff_injective_get.mp (sortedIdxList_nodup ev)
  have h2 := congrArg Fin.val (hinj hab)
  exact Fin.ext h2

lemma sum_sortedEig {m : ℕ} (ev : Fin m → ℚ) :
    ∑ c, sortedEig ev c = ∑ j, ev j :=
  Fintype.sum_bijective (sortIdx ev) (sortIdx_bijective ev) _ ev fun _ => rfl

/-- C9: with nonnegative eigenvalues of positive total, every explained
variance ratio lies in `[0,1]`, the ratios are non-increasing, the first
`k` of them sum to at most 1, and ratio `c` is sorted eigenvalue `c`
divided by the total. -/
theorem explainedVarianceRatio_invariants {m k : ℕ} (ev : Fin m → ℚ)
    (hk : k ≤ m) (hpos : ∀ j, 0 ≤ ev j) (hsum : 0 < ∑ j, ev j) :
    (∀ c, 0 ≤ explainedVarianceRatio ev c ∧ explainedVarianceRatio ev c ≤ 1) ∧
    (∀ c c' : Fin m, c ≤ c' →
      explainedVarianceRatio ev c' ≤ explainedVarianceRatio ev c) ∧
    (∑ c : Fin k, explainedVarianceRatio ev (Fin.castLE hk c)) ≤ 1 ∧
    (∀ c, explainedVarianceRatio ev c = sortedEig ev c / ∑ j, ev j) := by
  refine ⟨fun c => ⟨?_, ?_⟩, fun c c' h => ?_, ?_, fun c => rfl⟩
  · exact div_nonneg (hpos _) hsum.le
  · rw [explainedVarianceRatio, div_le_one hsum]
    exact Finset.single_le_sum (fun j _ => hpos j) (Finset.mem_univ _)
  · exact (div_le_div_iff_of_pos_right hsum).mpr (sortedEig_anti ev h)
  · have himg : ∑ c : Fin k, sortedEig ev (Fin.castLE hk c)
        = ∑ j in Finset.univ.image (Fin.castLE hk), sortedEig ev j :=
      (Finset.sum_image (f := sortedEig ev) (g := Fin.castLE hk)
        (fun a _ b _ hab => by
          have h2 := congrArg Fin.val hab
          exact Fin.ext h2)).symm
    rw [show (∑ c : Fin k, explainedVarianceRatio ev (Fin.castLE hk c))
        = (∑ c : Fin k, sortedEig ev (Fin.castLE hk c)) / ∑ j, ev j from
        (Finset.sum_div _ _ _).symm, div_le_one hsum, ← sum_sortedEig ev, himg]
    exact Finset.sum_le_sum_of_subset_of_nonneg (Finset.subset_univ _)
      fun j _ _ => hpos (sortIdx ev j)

/-- Witness for C9 at the concrete eigenvalue vector `evd` with `k = 1`. -/
theorem explainedVarianceRatio_invariants_witness :
    ((1 ≤ 2 ∧ ∀ j, 0 ≤ evd j) ∧ 0 < ∑ j, evd j) ∧
    (∑ c : Fin 1, explainedVarianceRatio evd (Fin.castLE one_le_two c)) ≤ 1 := by
  have hpos : ∀ j, 0 ≤ evd j := fun j => by fin_cases j <;> norm_num [evd]
  have hsum : 0 < ∑ j, evd j := by norm_num [Fin.sum_univ_two, evd]
  exact ⟨⟨⟨by norm_num, hpos⟩, hsum⟩,
    (explainedVarianceRatio_invariants evd one_le_two hpos hsum).2.2.1⟩

/-- C10: reindexing eigenvalues and eigenvector columns by the same
descending permutation preserves the eigen pairing: for every position `c`,
`cov_matrix · v_c = λ_c · v_c` for the sorted pair at `c`. -/
theorem sorted_eigen_pairing_preserved {m : ℕ} (C V : Matrix (Fin m) (Fin m) ℚ)
    (ev : Fin m → ℚ)
    (hpair : ∀ j, C.mulVec (fun r => V r j) = ev j • fun r => V r j)
    (c : Fin m) :
    C.mulVec (fun r => sortedVecs ev V r c)
      = sortedEig ev c • fun r => sortedVecs ev V r c :=
  hpair (sortIdx ev c)

/-- Witness for C10 at the concrete covariance matrix with eigenpairs
`evd`, `Vd`. -/
theorem sorted_eigen_pairing_preserved_witness :
    (covMatrix (standardize Xd sd)).mulVec (fun r => sortedVecs evd Vd r 0)
      = sortedEig evd 0 • fun r => sortedVecs evd Vd r 0 :=
  sorted_eigen_pairing_preserved (covMatrix (standardize Xd sd)) Vd evd
    (fun j => by
      ext r
      fin_cases j <;> fin_cases r <;>
        norm_num [Matrix.mulVec, Matrix.dotProduct, covMatrix, standardize,
          colMean, Xd, sd, Vd, evd, Fin.sum_univ_succ, Pi.smul_apply,
          smul_eq_mul]) 0

end PCA
